import Mathlib

/-!
Verification of the merge helpers of `src/enrichDocuments.js`
(`normStr`, `normNum`, `mergeRates`, `mergeTags`, `mergeRepeatable`,
`arraysEqual`).

The JavaScript functions are shallowly embedded: scalar JSON values are the
type `JVal`, JavaScript numbers are `JNum` (a rational together with `NaN`
and the two infinities; the float/rational distinction is not observable by
any property proved here), the ECMAScript string builtins used by the code
(`trim`, `toLowerCase`, template-literal stringification, `Number` coercion)
are modelled as executable Lean functions, and the insertion-ordered
`Map` of the source is an association list with in-place overwrite
(`mapSet`).  Entries of the repeatable collections may be `null` or
`undefined` in the source; an entry is therefore an `Option` of a record,
and the possible `TypeError` of a property access on a nullish entry is an
`Except Unit` error in the checked variants (`mergeRatesChk`, ...).
-/

/-- Model of an ECMAScript number: `NaN`, signed infinity, or a finite
value (represented exactly as a rational; none of the verified properties
observes float rounding). -/
inductive JNum where
  | nan : JNum
  | inf (pos : Bool) : JNum
  | fin (q : ℚ) : JNum
deriving DecidableEq

/-- Scalar JavaScript/JSON value as it occurs in the enrichment records:
`null`, `undefined`, boolean, number or string. -/
inductive JVal where
  | vnull : JVal
  | vundef : JVal
  | vbool (b : Bool) : JVal
  | vnum (n : JNum) : JVal
  | vstr (s : String) : JVal
deriving DecidableEq

open JNum JVal

/-- Characters removed by `String.prototype.trim` (ECMAScript WhiteSpace
and LineTerminator code points). -/
def jsWhitespace (c : Char) : Bool :=
  (c == ' ') || (c == '\t') || (c == '\n') || (c == '\r') ||
  (c == Char.ofNat 11) || (c == Char.ofNat 12) || (c == Char.ofNat 160) ||
  (c == Char.ofNat 0xFEFF) || (c == Char.ofNat 0x2028) || (c == Char.ofNat 0x2029)

/-- Remove trailing whitespace characters from a character list. -/
def trimEnd : List Char → List Char
  | [] => []
  | c :: rest =>
    if trimEnd rest = [] ∧ jsWhitespace c then [] else c :: trimEnd rest

/-- Model of `String.prototype.trim`: strip leading and trailing
whitespace. -/
def jsTrim (s : String) : String :=
  String.mk (trimEnd (s.data.dropWhile jsWhitespace))

/-- ASCII lower-casing of a single character (the repository only compares
ASCII unit names and tag labels). -/
def lowerChar (c : Char) : Char :=
  if 'A' ≤ c ∧ c ≤ 'Z' then Char.ofNat (c.toNat + 32) else c

/-- Model of `String.prototype.toLowerCase` on the ASCII range. -/
def jsToLower (s : String) : String :=
  String.mk (s.data.map lowerChar)

/-- Numeric value of a list of decimal digit characters (most significant
first). -/
def digitsVal (l : List Char) : Nat :=
  l.foldl (fun a c => 10 * a + (c.toNat - 48)) 0

/-- Parse an optional decimal exponent suffix (`e±ddd`); `none` on a
malformed suffix, `some 0` when absent. -/
def parseExpPart : List Char → Option Int
  | [] => some 0
  | 'e' :: r => parseSignedInt r
  | 'E' :: r => parseSignedInt r
  | _ => none
where
  parseSignedInt : List Char → Option Int
    | '+' :: r => if r ≠ [] ∧ r.all Char.isDigit then some (digitsVal r) else none
    | '-' :: r => if r ≠ [] ∧ r.all Char.isDigit then some (-(digitsVal r : Int)) else none
    | r => if r ≠ [] ∧ r.all Char.isDigit then some (digitsVal r) else none

/-- Mantissa times ten to a signed exponent. -/
def applyExp (m : ℚ) (e : Int) : ℚ := m * (10 : ℚ) ^ e

/-- Parse an unsigned decimal numeral (`ddd`, `ddd.ddd`, `.ddd`, `ddd.`,
optional exponent), as accepted by the ECMAScript `StringNumericLiteral`
grammar restricted to decimal notation. -/
def parseDec (l : List Char) : Option ℚ :=
  let p := l.span Char.isDigit
  match p.2 with
  | '.' :: r2 =>
    let q := r2.span Char.isDigit
    if p.1.isEmpty ∧ q.1.isEmpty then none
    else (parseExpPart q.2).map (fun e =>
      applyExp ((digitsVal p.1 : ℚ) + (digitsVal q.1 : ℚ) / (10 : ℚ) ^ q.1.length) e)
  | _ =>
    if p.1.isEmpty then none
    else (parseExpPart p.2).map (fun e => applyExp (digitsVal p.1) e)

/-- Negation on modelled numbers. -/
def negJNum : JNum → JNum
  | nan => nan
  | inf b => inf (!b)
  | fin q => fin (-q)

/-- An unsigned numeral body: `Infinity` or a decimal numeral. -/
def unsignedNum (l : List Char) : Option JNum :=
  if l = ['I', 'n', 'f', 'i', 'n', 'i', 't', 'y'] then some (inf true)
  else (parseDec l).map fin

/-- Model of ECMAScript `ToNumber` on strings: trim, empty means `0`,
otherwise an optionally signed decimal numeral or `Infinity`; anything
else is `NaN`.  (Hex/octal/binary literal forms are not modelled; no
property below depends on them.) -/
def strToNum (s : String) : JNum :=
  let t := (jsTrim s).data
  if t = [] then fin 0
  else
    let r :=
      match t with
      | '+' :: r => unsignedNum r
      | '-' :: r => (unsignedNum r).map negJNum
      | r => unsignedNum r
    match r with
    | some n => n
    | none => nan

/-- Decimal rendering of a modelled number, used for template-literal keys
and string coercion.  JavaScript renders finite non-integers with the
shortest round-tripping decimal; here non-integers are rendered as
`num/den`, which no verified property observes (the rendering is only used
as an opaque map-key component). -/
def numToStr : JNum → String
  | nan => "NaN"
  | inf true => "Infinity"
  | inf false => "-Infinity"
  | fin q => if q.den = 1 then toString q.num else toString q.num ++ "/" ++ toString q.den

/-- Model of ECMAScript `ToString` on scalar values (template-literal
interpolation). -/
def jToString : JVal → String
  | vnull => "null"
  | vundef => "undefined"
  | vbool true => "true"
  | vbool false => "false"
  | vnum n => numToStr n
  | vstr s => s

/-- Model of ECMAScript `ToNumber` on scalar values. -/
def toNumber : JVal → JNum
  | vnull => fin 0
  | vundef => nan
  | vbool true => fin 1
  | vbool false => fin 0
  | vnum n => n
  | vstr s => strToNum s

/-- Embedding of `const normStr = (v) => (v ?? "").toString().trim();`
(src/enrichDocuments.js line 61). -/
def normStr (v : JVal) : String :=
  jsTrim (jToString (match v with
    | vnull => vstr ""
    | vundef => vstr ""
    | x => x))

/-- Embedding of
`const normNum = (v) => (v === null || v === undefined || v === "" ? null : Number(v));`
(src/enrichDocuments.js line 62). -/
def normNum (v : JVal) : JVal :=
  if v = vnull ∨ v = vundef ∨ v = vstr "" then vnull else vnum (toNumber v)

/-! ## Insertion-ordered string-keyed map

`new Map()` of the source, modelled as an association list: `mapSet`
overwrites the value of a present key in place (keeping its position, as
JavaScript `Map.prototype.set` keeps insertion order) and appends a fresh
key at the end; `valuesOf` is `Array.from(map.values())`. -/

/-- First value bound to `k`, if any. -/
def mlookup {α : Type} : List (String × α) → String → Option α
  | [], _ => none
  | (k', v) :: rest, k => if k' = k then some v else mlookup rest k

/-- Model of `Map.prototype.set`: overwrite in place or append. -/
def mapSet {α : Type} : List (String × α) → String → α → List (String × α)
  | [], k, v => [(k, v)]
  | (k', v') :: rest, k, v =>
    if k' = k then (k, v) :: rest else (k', v') :: mapSet rest k v

/-- The keys of the map, in insertion order. -/
def keysOf {α : Type} (m : List (String × α)) : List String := m.map (fun p => p.1)

/-- Model of `Array.from(map.values())`: the values in insertion order. -/
def valuesOf {α : Type} (m : List (String × α)) : List α := m.map (fun p => p.2)

/-- One `for`-loop over `l` starting from map `m`: each element either
emits a key/value pair that is `set` into the map, or is skipped
(`continue`). -/
def insFold {σ α : Type} (emit : σ → Option (String × α)) (l : List σ)
    (m : List (String × α)) : List (String × α) :=
  l.foldl (fun acc s =>
    match emit s with
    | none => acc
    | some (k, v) => mapSet acc k v) m

/-- The keys of a list, keeping only the first occurrence of each
(specification-side description of key insertion order). -/
def dedupKeys : List String → List String
  | [] => []
  | k :: rest => k :: dedupKeys (rest.filter (fun x => x ≠ k))
termination_by l => l.length
decreasing_by
  simp only [List.length_cons]
  exact Nat.lt_succ_of_le (List.length_filter_le _ _)

/-! ## The merge helpers -/

/-- A raw `rates` entry `{ amount, unit }` as read from JSON or from the
CMS (field values are arbitrary scalar values). -/
structure RawRate where
  amount : JVal
  unit : JVal
deriving DecidableEq

/-- A normalized rate `{ amount, unit }` as stored into the map by
`mergeRates`: `amount` is `normNum` of the raw amount (so `null` or a
number), `unit` is the trimmed string of the raw unit. -/
structure NRate where
  amount : JVal
  unit : String
deriving DecidableEq

/-- The composite map key of a raw rate entry:
`` `${amount}|${unit.toLowerCase()}` `` for the normalized amount and
unit. -/
def rateKey (r : RawRate) : String :=
  jToString (normNum r.amount) ++ "|" ++ jsToLower (normStr r.unit)

/-- The normalized value `{ amount, unit }` stored for a raw rate entry. -/
def rateVal (r : RawRate) : NRate :=
  ⟨normNum r.amount, normStr r.unit⟩

/-- The composite key recomputed from a stored normalized rate. -/
def nrateKey (e : NRate) : String :=
  jToString e.amount ++ "|" ++ jsToLower e.unit

/-- A stored normalized rate, viewed again as a raw entry (this is how the
output of `mergeRates` is fed back in as `existing`). -/
def nrateToRaw (e : NRate) : RawRate :=
  ⟨e.amount, vstr e.unit⟩

/-- Body of the first `for` loop of `mergeRates` (existing entries; no
null check, no skip). -/
def rateExStep (r : RawRate) : Option (String × NRate) :=
  some (rateKey r, rateVal r)

/-- Body of the second `for` loop of `mergeRates` (incoming entries):
`if (!r) continue;` skips nullish entries and
`if (amount === null && !unit) continue;` skips empty ones. -/
def rateIncStep (o : Option RawRate) : Option (String × NRate) :=
  match o with
  | none => none
  | some r =>
    if normNum r.amount = vnull ∧ normStr r.unit = "" then none
    else some (rateKey r, rateVal r)

/-- Embedding of `mergeRates` (src/enrichDocuments.js lines 64-79) on an existing list
whose entries are all non-nullish (the function throws otherwise, see
`mergeRatesChk`): seed a `Map` keyed by `` `${amount}|${unit.toLowerCase()}` ``
with the existing entries, overwrite/extend with the incoming entries,
and return the values. -/
def mergeRates (existing : List RawRate) (incoming : List (Option RawRate)) : List NRate :=
  valuesOf (insFold rateIncStep incoming (insFold rateExStep existing []))

/-- Sequence a list of fallible computations left to right, stopping at
the first error (the order in which a `for` loop over the list would
raise). -/
def exListMap {α β : Type} (f : α → Except Unit β) : List α → Except Unit (List β)
  | [] => Except.ok []
  | x :: rest =>
    match f x with
    | Except.error e => Except.error e
    | Except.ok y =>
      match exListMap f rest with
      | Except.error e => Except.error e
      | Except.ok ys => Except.ok (y :: ys)

/-- Dereferencing one entry of a repeatable collection: a nullish entry
raises a `TypeError`. -/
def getEntry {α : Type} : Option α → Except Unit α
  | none => Except.error ()
  | some r => Except.ok r

/-- Embedding of `mergeRates` with nullish entries allowed on both sides; an
`Except.error` is the `TypeError` that `r.amount` raises on a nullish
`r` in the first loop. -/
def mergeRatesChk (existing incoming : List (Option RawRate)) :
    Except Unit (List NRate) :=
  (exListMap getEntry existing).map (fun ex => mergeRates ex incoming)

/-- A raw `tag` entry `{ label }`. -/
structure RawTag where
  label : JVal
deriving DecidableEq

/-- A normalized tag `{ label }` (trimmed, case preserved). -/
structure NTag where
  label : String
deriving DecidableEq

/-- The map key of a tag entry: the lowercased trimmed label. -/
def tagKey (t : RawTag) : String :=
  jsToLower (normStr t.label)

/-- The normalized value stored for a tag entry. -/
def tagVal (t : RawTag) : NTag :=
  ⟨normStr t.label⟩

/-- Body of the first `for` loop of `mergeTags` (existing entries; empty
labels are not inserted: `if (label) set.set(...)`). -/
def tagExStep (t : RawTag) : Option (String × NTag) :=
  if normStr t.label = "" then none else some (tagKey t, tagVal t)

/-- Body of the second `for` loop of `mergeTags` (incoming entries;
`if (!t) continue;` then the same empty-label guard). -/
def tagIncStep (o : Option RawTag) : Option (String × NTag) :=
  match o with
  | none => none
  | some t => if normStr t.label = "" then none else some (tagKey t, tagVal t)

/-- Embedding of `mergeTags` (src/enrichDocuments.js lines 81-93) on an existing
list of non-nullish entries. -/
def mergeTags (existing : List RawTag) (incoming : List (Option RawTag)) : List NTag :=
  valuesOf (insFold tagIncStep incoming (insFold tagExStep existing []))

/-- Embedding of `mergeTags` with nullish entries allowed on both sides. -/
def mergeTagsChk (existing incoming : List (Option RawTag)) :
    Except Unit (List NTag) :=
  (exListMap getEntry existing).map (fun ex => mergeTags ex incoming)

/-- A raw repeatable-component entry: a JavaScript object, i.e. a list of
fields (a key absent from the list reads as `undefined`). -/
def RawObj : Type := List (String × JVal)

/-- Reading `obj[k]`. -/
def objGet (o : RawObj) (k : String) : JVal :=
  (mlookup o k).getD vundef

/-- The `norm` closure of `mergeRepeatable` (src/enrichDocuments.js lines
96-102): keep only the listed fields that are present (`!== undefined`),
each passed through `normStr`. -/
def normRep (keyFields : List String) (o : RawObj) : List (String × String) :=
  keyFields.foldl (fun res k =>
    if objGet o k = vundef then res else mapSet res k (normStr (objGet o k))) []

/-- Embedding of `mergeRepeatable` (src/enrichDocuments.js lines 95-105) on lists of
non-nullish entries: normalize incoming, drop entries that normalized to
the empty object, return them if any remain, else the normalized existing
list. -/
def mergeRepeatable (existing incoming : List RawObj)
    (keyFields : List String) : List (List (String × String)) :=
  let incomingNorm := (incoming.map (normRep keyFields)).filter
    (fun o => decide (0 < o.length))
  if 0 < incomingNorm.length then incomingNorm
  else existing.map (normRep keyFields)

/-- Normalization of one possibly-nullish repeatable entry: `obj[k]`
raises a `TypeError` on a nullish `obj` as soon as the loop over
`keyFields` runs at least once (with no key fields the object is never
dereferenced and the result is the empty object). -/
def normRepChk (keyFields : List String) (o : Option RawObj) :
    Except Unit (List (String × String)) :=
  match o with
  | some x => Except.ok (normRep keyFields x)
  | none => if keyFields.isEmpty then Except.ok [] else Except.error ()

/-- Embedding of `mergeRepeatable` with nullish entries allowed on both sides.  The
existing list is only normalized (and can only raise) when the normalized
incoming list is empty, exactly as in the source's conditional
expression. -/
def mergeRepeatableChk (existing incoming : List (Option RawObj))
    (keyFields : List String) : Except Unit (List (List (String × String))) :=
  match exListMap (normRepChk keyFields) incoming with
  | Except.error e => Except.error e
  | Except.ok incomingNorm0 =>
    let incomingNorm := incomingNorm0.filter (fun o => decide (0 < o.length))
    if 0 < incomingNorm.length then Except.ok incomingNorm
    else exListMap (normRepChk keyFields) existing

/-- A scalar-valued record, the element shape of the collections that
`arraysEqual` compares (rates, tags, repeatable notes). -/
def JRec : Type := List (String × JVal)

/-- Model of `JSON.stringify` of a scalar value in value position (`NaN`,
infinities and `undefined` serialize as `null` inside arrays; `undefined`
fields are skipped at the record level, see `stringifyRec`). -/
def jsonScalar : JVal → String
  | vnull => "null"
  | vundef => "null"
  | vbool true => "true"
  | vbool false => "false"
  | vnum nan => "null"
  | vnum (inf _) => "null"
  | vnum (fin q) => numToStr (fin q)
  | vstr s => "\"" ++ String.mk (s.data.foldr (fun c acc =>
      if c = '"' ∨ c = '\\' then '\\' :: c :: acc else c :: acc) []) ++ "\""

/-- Model of `JSON.stringify` of one record: fields with `undefined` values
are omitted. -/
def stringifyRec (r : JRec) : String :=
  "\x7b" ++ String.intercalate "," (r.filterMap (fun p =>
    if p.2 = vundef then none
    else some (jsonScalar (vstr p.1) ++ ":" ++ jsonScalar p.2))) ++ "\x7d"

/-- Model of `JSON.stringify` of a collection of records. -/
def stringifyArr (l : List JRec) : String :=
  "[" ++ String.intercalate "," (l.map stringifyRec) ++ "]"

/-- Embedding of `arraysEqual` (src/enrichDocuments.js lines 107-109):
`JSON.stringify(a) === JSON.stringify(b)`. -/
def arraysEqual (a b : List JRec) : Bool :=
  stringifyArr a == stringifyArr b


/-! ## Normalization is stable -/

theorem trimEnd_idem (l : List Char) : trimEnd (trimEnd l) = trimEnd l := by
  induction l with
  | nil => rfl
  | cons c rest ih =>
    by_cases h : trimEnd rest = [] ∧ jsWhitespace c
    · simp [trimEnd, h]
    · simp only [trimEnd, if_neg h, ih]

theorem dropWhile_idem (p : Char → Bool) (l : List Char) :
    (l.dropWhile p).dropWhile p = l.dropWhile p := by
  induction l with
  | nil => rfl
  | cons c rest ih =>
    by_cases h : p c
    · simpa [List.dropWhile, h] using ih
    · simp [List.dropWhile, h]

theorem head_not_ws_of_dropWhile_eq {p : Char → Bool} {c : Char} {rest : List Char}
    (h : (c :: rest).dropWhile p = c :: rest) : p c = false := by
  by_cases hc : p c
  · exfalso
    rw [List.dropWhile_cons, if_pos hc] at h
    have := congrArg List.length h
    have hle := (List.dropWhile_sublist (l := rest) p).length_le
    simp at this
    omega
  · simpa using hc

theorem dropWhile_trimEnd {l : List Char}
    (h : l.dropWhile jsWhitespace = l) :
    (trimEnd l).dropWhile jsWhitespace = trimEnd l := by
  cases l with
  | nil => rfl
  | cons c rest =>
    have hc : jsWhitespace c = false := head_not_ws_of_dropWhile_eq h
    have : trimEnd (c :: rest) = c :: trimEnd rest := by
      rw [trimEnd, if_neg]
      rintro ⟨-, hw⟩
      simp [hc] at hw
    rw [this, List.dropWhile_cons, if_neg (by simp [hc])]

theorem jsTrim_idem (s : String) : jsTrim (jsTrim s) = jsTrim s := by
  show String.mk (trimEnd (List.dropWhile jsWhitespace
      (trimEnd (s.data.dropWhile jsWhitespace)))) = _
  rw [dropWhile_trimEnd (dropWhile_idem _ _), trimEnd_idem]
  rfl

theorem normStr_vstr (s : String) : normStr (vstr s) = jsTrim s := rfl

theorem jsTrim_normStr (v : JVal) : jsTrim (normStr v) = normStr v := by
  cases v <;> exact jsTrim_idem _

theorem normStr_stable (v : JVal) : normStr (vstr (normStr v)) = normStr v :=
  jsTrim_normStr v

theorem toNumber_vnum (n : JNum) : toNumber (vnum n) = n := rfl

theorem normNum_shape (v : JVal) :
    normNum v = vnull ∨ ∃ n, normNum v = vnum n := by
  rw [normNum]
  by_cases h : v = vnull ∨ v = vundef ∨ v = vstr ""
  · rw [if_pos h]; exact Or.inl rfl
  · rw [if_neg h]; exact Or.inr ⟨toNumber v, rfl⟩

theorem normNum_idem (v : JVal) : normNum (normNum v) = normNum v := by
  rcases normNum_shape v with h | ⟨n, h⟩
  · rw [h]; rfl
  · rw [h, normNum, if_neg (by rintro (h | h | h) <;> exact JVal.noConfusion h)]
    rfl

/-! ## Association-list map lemmas -/

section MapLemmas

variable {α : Type}

theorem keysOf_nil : keysOf ([] : List (String × α)) = [] := rfl

theorem keysOf_cons (p : String × α) (m : List (String × α)) :
    keysOf (p :: m) = p.1 :: keysOf m := rfl

theorem keysOf_append (m₁ m₂ : List (String × α)) :
    keysOf (m₁ ++ m₂) = keysOf m₁ ++ keysOf m₂ := by
  simp [keysOf]

theorem valuesOf_nil : valuesOf ([] : List (String × α)) = [] := rfl

theorem valuesOf_cons (p : String × α) (m : List (String × α)) :
    valuesOf (p :: m) = p.2 :: valuesOf m := rfl

theorem mlookup_mapSet (m : List (String × α)) (k k' : String) (v : α) :
    mlookup (mapSet m k v) k' = if k = k' then some v else mlookup m k' := by
  induction m with
  | nil => simp [mapSet, mlookup]
  | cons p rest ih =>
    obtain ⟨k0, v0⟩ := p
    by_cases h : k0 = k
    · subst h
      by_cases hk : k0 = k'
      · subst hk; simp [mapSet, mlookup]
      · simp [mapSet, mlookup, hk]
    · by_cases hk : k = k' <;> by_cases hk0 : k0 = k' <;>
        simp_all [mapSet, mlookup]

theorem keysOf_mapSet (m : List (String × α)) (k : String) (v : α) :
    keysOf (mapSet m k v) =
      if k ∈ keysOf m then keysOf m else keysOf m ++ [k] := by
  induction m with
  | nil => simp [mapSet, keysOf_nil, keysOf_cons]
  | cons p rest ih =>
    obtain ⟨k0, v0⟩ := p
    by_cases h : k0 = k
    · subst h
      rw [mapSet, if_pos rfl, keysOf_cons, keysOf_cons,
        if_pos (List.mem_cons_self _ _)]
    · have hne : k ∈ k0 :: keysOf rest ↔ k ∈ keysOf rest := by
        constructor
        · intro hh
          rcases List.mem_cons.mp hh with h1 | h1
          · exact absurd h1.symm h
          · exact h1
        · exact fun hh => List.mem_cons_of_mem _ hh
      rw [mapSet, if_neg h, keysOf_cons, keysOf_cons, ih]
      by_cases hmem : k ∈ keysOf rest
      · rw [if_pos hmem, if_pos (hne.mpr hmem)]
      · rw [if_neg hmem, if_neg (fun hh => hmem (hne.mp hh)), List.cons_append]

theorem mem_keysOf_mapSet {m : List (String × α)} {k' : String} (k : String) (v : α)
    (h : k' ∈ keysOf m) : k' ∈ keysOf (mapSet m k v) := by
  rw [keysOf_mapSet]
  by_cases hm : k ∈ keysOf m
  · rwa [if_pos hm]
  · rw [if_neg hm]
    exact List.mem_append_left _ h

theorem self_mem_keysOf_mapSet (m : List (String × α)) (k : String) (v : α) :
    k ∈ keysOf (mapSet m k v) := by
  rw [keysOf_mapSet]
  by_cases hm : k ∈ keysOf m
  · rwa [if_pos hm]
  · rw [if_neg hm]
    exact List.mem_append_right _ (List.mem_singleton.mpr rfl)

theorem nodup_keysOf_mapSet {m : List (String × α)} (k : String) (v : α)
    (h : (keysOf m).Nodup) : (keysOf (mapSet m k v)).Nodup := by
  rw [keysOf_mapSet]
  by_cases hm : k ∈ keysOf m
  · rwa [if_pos hm]
  · rw [if_neg hm]
    refine List.Nodup.append h (List.nodup_singleton k) ?_
    intro x hx hx'
    rw [List.mem_singleton] at hx'
    subst hx'
    exact hm hx

theorem mapSet_eq_self {m : List (String × α)} {k : String} {v : α}
    (h : mlookup m k = some v) : mapSet m k v = m := by
  induction m with
  | nil => simp [mlookup] at h
  | cons p rest ih =>
    obtain ⟨k0, v0⟩ := p
    by_cases hk : k0 = k
    · subst hk
      rw [mlookup, if_pos rfl] at h
      rw [mapSet, if_pos rfl]
      injection h with h
      rw [h]
    · rw [mlookup, if_neg hk] at h
      rw [mapSet, if_neg hk, ih h]

theorem mapSet_of_not_mem {m : List (String × α)} {k : String} (v : α)
    (h : k ∉ keysOf m) : mapSet m k v = m ++ [(k, v)] := by
  induction m with
  | nil => rfl
  | cons p rest ih =>
    obtain ⟨k0, v0⟩ := p
    rw [keysOf_cons, List.mem_cons] at h
    push_neg at h
    rw [mapSet, if_neg (fun hh : k0 = k => h.1 hh.symm), ih h.2, List.cons_append]

theorem mapSet_forall {P : String × α → Prop} {m : List (String × α)}
    {k : String} {v : α} (h : ∀ p ∈ m, P p) (hkv : P (k, v)) :
    ∀ p ∈ mapSet m k v, P p := by
  induction m with
  | nil =>
    intro p hp
    rw [show mapSet ([] : List (String × α)) k v = [(k, v)] from rfl,
      List.mem_singleton] at hp
    subst hp
    exact hkv
  | cons p0 rest ih =>
    obtain ⟨k0, v0⟩ := p0
    by_cases hk : k0 = k
    · subst hk
      rw [mapSet, if_pos rfl]
      intro p hp
      rcases List.mem_cons.mp hp with h1 | h1
      · subst h1; exact hkv
      · exact h p (List.mem_cons_of_mem _ h1)
    · rw [mapSet, if_neg hk]
      intro p hp
      rcases List.mem_cons.mp hp with h1 | h1
      · subst h1; exact h _ (List.mem_cons_self _ _)
      · exact ih (fun q hq => h q (List.mem_cons_of_mem _ hq)) p h1

theorem mlookup_eq_none_of_not_mem {m : List (String × α)} {k : String}
    (h : k ∉ keysOf m) : mlookup m k = none := by
  induction m with
  | nil => rfl
  | cons p rest ih =>
    obtain ⟨k0, v0⟩ := p
    rw [keysOf_cons, List.mem_cons] at h
    push_neg at h
    rw [mlookup, if_neg (fun hh : k0 = k => h.1 hh.symm), ih h.2]

theorem mlookup_valfun {f : String → α} {m : List (String × α)}
    (hf : ∀ p ∈ m, p.2 = f p.1) {k : String} (h : k ∈ keysOf m) :
    mlookup m k = some (f k) := by
  induction m with
  | nil => simp [keysOf_nil] at h
  | cons p rest ih =>
    obtain ⟨k0, v0⟩ := p
    by_cases hk : k0 = k
    · subst hk
      have hv : v0 = f k0 := hf (k0, v0) (List.mem_cons_self _ _)
      rw [mlookup, if_pos rfl, hv]
    · rw [keysOf_cons, List.mem_cons] at h
      rcases h with h1 | h1
      · exact absurd h1.symm hk
      · rw [mlookup, if_neg hk]
        exact ih (fun q hq => hf q (List.mem_cons_of_mem _ hq)) h1

theorem assoc_ext {m₁ m₂ : List (String × α)}
    (h1 : keysOf m₁ = keysOf m₂)
    (h2 : ∀ k, mlookup m₁ k = mlookup m₂ k)
    (h3 : (keysOf m₁).Nodup) : m₁ = m₂ := by
  induction m₁ generalizing m₂ with
  | nil =>
    cases m₂ with
    | nil => rfl
    | cons p rest => exact absurd h1.symm (by rw [keysOf_cons, keysOf_nil]; simp)
  | cons p rest ih =>
    obtain ⟨k0, v0⟩ := p
    cases m₂ with
    | nil => exact absurd h1 (by rw [keysOf_cons, keysOf_nil]; simp)
    | cons p2 rest2 =>
      obtain ⟨k2, v2⟩ := p2
      rw [keysOf_cons, keysOf_cons] at h1
      injection h1 with hk hrest
      subst hk
      have hv : v0 = v2 := by
        have := h2 k0
        rw [mlookup, mlookup, if_pos rfl, if_pos rfl] at this
        injection this
      subst hv
      rw [keysOf_cons, List.nodup_cons] at h3
      have htails : ∀ k, mlookup rest k = mlookup rest2 k := by
        intro k
        by_cases hk0 : k = k0
        · subst hk0
          rw [mlookup_eq_none_of_not_mem h3.1,
            mlookup_eq_none_of_not_mem (by rw [← hrest]; exact h3.1)]
        · have := h2 k
          rwa [mlookup, mlookup, if_neg (fun hh : k0 = k => hk0 hh.symm),
            if_neg (fun hh : k0 = k => hk0 hh.symm)] at this
      rw [ih hrest htails h3.2]

end MapLemmas

/-! ## Loop (insFold) lemmas -/

/-- First-defined choice of two optional values. -/
def firstSome {α : Type} (a b : Option α) : Option α :=
  match a with
  | some v => some v
  | none => b

section InsFoldLemmas

variable {σ α : Type}

theorem insFold_nil (emit : σ → Option (String × α)) (m : List (String × α)) :
    insFold emit [] m = m := rfl

theorem insFold_cons_none (emit : σ → Option (String × α)) {s : σ}
    (he : emit s = none) (l : List σ) (m : List (String × α)) :
    insFold emit (s :: l) m = insFold emit l m := by
  simp [insFold, he]

theorem insFold_cons_some (emit : σ → Option (String × α)) {s : σ} {k : String}
    {v : α} (he : emit s = some (k, v)) (l : List σ) (m : List (String × α)) :
    insFold emit (s :: l) m = insFold emit l (mapSet m k v) := by
  simp [insFold, he]

theorem nodup_keysOf_insFold (emit : σ → Option (String × α)) (l : List σ)
    {m : List (String × α)} (h : (keysOf m).Nodup) :
    (keysOf (insFold emit l m)).Nodup := by
  induction l generalizing m with
  | nil => exact h
  | cons s l ih =>
    cases he : emit s with
    | none => rw [insFold_cons_none emit he]; exact ih h
    | some p =>
      obtain ⟨k, v⟩ := p
      rw [insFold_cons_some emit he]
      exact ih (nodup_keysOf_mapSet k v h)

theorem insFold_forall {emit : σ → Option (String × α)} {P : String × α → Prop}
    (hemit : ∀ s p, emit s = some p → P p) (l : List σ)
    {m : List (String × α)} (h : ∀ p ∈ m, P p) :
    ∀ p ∈ insFold emit l m, P p := by
  induction l generalizing m with
  | nil => exact h
  | cons s l ih =>
    cases he : emit s with
    | none => rw [insFold_cons_none emit he]; exact ih h
    | some p =>
      obtain ⟨k, v⟩ := p
      rw [insFold_cons_some emit he]
      exact ih (mapSet_forall h (hemit s (k, v) he))

theorem mem_keysOf_insFold (emit : σ → Option (String × α)) (l : List σ)
    {m : List (String × α)} {k : String} (h : k ∈ keysOf m) :
    k ∈ keysOf (insFold emit l m) := by
  induction l generalizing m with
  | nil => exact h
  | cons s l ih =>
    cases he : emit s with
    | none => rw [insFold_cons_none emit he]; exact ih h
    | some p =>
      obtain ⟨k0, v0⟩ := p
      rw [insFold_cons_some emit he]
      exact ih (mem_keysOf_mapSet k0 v0 h)

theorem emitted_mem_keysOf_insFold (emit : σ → Option (String × α)) {l : List σ}
    {s : σ} {k : String} {v : α} (hs : s ∈ l) (he : emit s = some (k, v))
    (m : List (String × α)) : k ∈ keysOf (insFold emit l m) := by
  induction l generalizing m with
  | nil => simp at hs
  | cons s0 l ih =>
    rcases List.mem_cons.mp hs with h1 | h1
    · subst h1
      rw [insFold_cons_some emit he]
      exact mem_keysOf_insFold emit l (self_mem_keysOf_mapSet m k v)
    · cases he0 : emit s0 with
      | none => rw [insFold_cons_none emit he0]; exact ih h1 m
      | some p =>
        obtain ⟨k0, v0⟩ := p
        rw [insFold_cons_some emit he0]
        exact ih h1 (mapSet m k0 v0)

theorem mlookup_append (m₁ m₂ : List (String × α)) (k : String) :
    mlookup (m₁ ++ m₂) k = firstSome (mlookup m₁ k) (mlookup m₂ k) := by
  induction m₁ with
  | nil => rfl
  | cons p rest ih =>
    obtain ⟨k0, v0⟩ := p
    by_cases h : k0 = k
    · simp [mlookup, h, firstSome]
    · simp [mlookup, h, ih]

theorem mlookup_insFold (emit : σ → Option (String × α)) (l : List σ)
    (m : List (String × α)) (k : String) :
    mlookup (insFold emit l m) k =
      firstSome (mlookup (l.filterMap emit).reverse k) (mlookup m k) := by
  induction l generalizing m with
  | nil => rfl
  | cons s l ih =>
    cases he : emit s with
    | none =>
      rw [insFold_cons_none emit he, List.filterMap_cons, he]
      exact ih m
    | some p =>
      obtain ⟨k0, v0⟩ := p
      rw [insFold_cons_some emit he, List.filterMap_cons, he, List.reverse_cons,
        ih, mlookup_append]
      cases hrev : mlookup (l.filterMap emit).reverse k with
      | some v => rfl
      | none =>
        show mlookup (mapSet m k0 v0) k = firstSome (mlookup [(k0, v0)] k) (mlookup m k)
        rw [mlookup_mapSet]
        by_cases hk : k0 = k
        · simp [mlookup, hk, firstSome]
        · simp [mlookup, hk, firstSome]

end InsFoldLemmas

/-! ## Key-order (dedupKeys) lemmas -/

theorem mem_dedupKeys (x : String) : ∀ l, x ∈ dedupKeys l ↔ x ∈ l := by
  intro l
  induction l using dedupKeys.induct with
  | case1 => simp [dedupKeys]
  | case2 k rest ih =>
    rw [dedupKeys]
    constructor
    · intro h
      rcases List.mem_cons.mp h with h1 | h1
      · exact h1 ▸ List.mem_cons_self _ _
      · exact List.mem_cons_of_mem _ (List.mem_filter.mp (ih.mp h1)).1
    · intro h
      rcases List.mem_cons.mp h with h1 | h1
      · exact h1 ▸ List.mem_cons_self _ _
      · by_cases hx : x = k
        · exact hx ▸ List.mem_cons_self _ _
        · exact List.mem_cons_of_mem _ (ih.mpr (List.mem_filter.mpr ⟨h1, by simp [hx]⟩))

theorem filter_swap (p q : String → Bool) (l : List String) :
    (l.filter p).filter q = (l.filter q).filter p := by
  induction l with
  | nil => rfl
  | cons x rest ih =>
    by_cases hp : p x <;> by_cases hq : q x <;>
      simp [List.filter_cons, hp, hq, ih]

theorem dedupKeys_filter_ne : ∀ (l : List String) (k : String),
    dedupKeys (l.filter (fun x => x ≠ k)) = (dedupKeys l).filter (fun x => x ≠ k) := by
  intro l
  induction l using dedupKeys.induct with
  | case1 => intro k; simp [dedupKeys]
  | case2 k0 rest ih =>
    intro k
    by_cases hk : k0 = k
    · subst hk
      have hLHS : (k0 :: rest).filter (fun x => x ≠ k0) =
          rest.filter (fun x => x ≠ k0) := by simp
      have hfix : (rest.filter (fun x => x ≠ k0)).filter (fun x => x ≠ k0) =
          rest.filter (fun x => x ≠ k0) :=
        List.filter_eq_self.mpr (fun a ha => (List.mem_filter.mp ha).2)
      have hIH := ih k0
      rw [hfix] at hIH
      have hhead : (k0 :: dedupKeys (rest.filter (fun x => x ≠ k0))).filter
            (fun x => x ≠ k0) =
          (dedupKeys (rest.filter (fun x => x ≠ k0))).filter (fun x => x ≠ k0) := by
        simp
      rw [hLHS, dedupKeys, hhead]
      exact hIH
    · have hstep : (k0 :: rest).filter (fun x => x ≠ k) =
          k0 :: rest.filter (fun x => x ≠ k) := by simp [hk]
      rw [hstep, dedupKeys, dedupKeys]
      have hhead : (k0 :: dedupKeys (rest.filter (fun x => x ≠ k0))).filter
            (fun x => x ≠ k) =
          k0 :: (dedupKeys (rest.filter (fun x => x ≠ k0))).filter
            (fun x => x ≠ k) := by
        simp [hk]
      rw [hhead, filter_swap, ih k]

theorem filter_drop_ne {p : String → Bool} {k0 : String} (hp : p k0 = false) :
    ∀ X : List String, (X.filter (fun x => x ≠ k0)).filter p = X.filter p := by
  intro X
  induction X with
  | nil => rfl
  | cons x rest ih =>
    rw [List.filter_cons]
    by_cases hx : x = k0
    · subst hx
      rw [if_neg (by simp), List.filter_cons, if_neg (by simp [hp])]
      exact ih
    · rw [if_pos (by simp [hx]), List.filter_cons, List.filter_cons]
      by_cases hpx : p x
      · rw [if_pos hpx, if_pos hpx, ih]
      · rw [if_neg hpx, if_neg hpx, ih]

theorem filter_not_mem_append (X A : List String) (k0 : String) :
    X.filter (fun k => k ∉ A ++ [k0]) =
      (X.filter (fun x => x ≠ k0)).filter (fun k => k ∉ A) := by
  induction X with
  | nil => rfl
  | cons x rest ih =>
    rw [List.filter_cons, List.filter_cons]
    by_cases hx : x = k0
    · subst hx
      rw [if_neg (by simp), if_neg (by simp)]
      exact ih
    · by_cases hxA : x ∈ A
      · rw [if_neg (by simp [List.mem_append, hxA]), if_pos (by simp [hx]),
          List.filter_cons, if_neg (by simp [hxA])]
        exact ih
      · rw [if_pos (by simp [List.mem_append, hx, hxA]), if_pos (by simp [hx]),
          List.filter_cons, if_pos (by simp [hxA]), ih]

section InsFoldOrder

variable {σ α : Type}

theorem keysOf_insFold (emit : σ → Option (String × α)) (l : List σ)
    (m : List (String × α)) :
    keysOf (insFold emit l m) =
      keysOf m ++ (dedupKeys ((l.filterMap emit).map (fun p => p.1))).filter
        (fun k => k ∉ keysOf m) := by
  induction l generalizing m with
  | nil => simp [insFold_nil, dedupKeys]
  | cons s l ih =>
    cases he : emit s with
    | none =>
      rw [insFold_cons_none emit he, List.filterMap_cons, he]
      exact ih m
    | some p =>
      obtain ⟨k0, v0⟩ := p
      rw [insFold_cons_some emit he, ih, List.filterMap_cons, he, List.map_cons,
        keysOf_mapSet, dedupKeys]
      by_cases hk : k0 ∈ keysOf m
      · rw [if_pos hk, List.filter_cons, if_neg (by simp [hk]), dedupKeys_filter_ne,
          filter_drop_ne (p := fun k => decide (k ∉ keysOf m)) (by simp [hk])]
      · rw [if_neg hk, List.filter_cons, if_pos (by simp [hk]),
          filter_not_mem_append, ← dedupKeys_filter_ne, List.append_assoc,
          List.singleton_append]

theorem insFold_fresh (emit : σ → Option (String × α)) :
    ∀ (l : List σ) (m : List (String × α)),
      (((l.filterMap emit).map (fun p => p.1))).Nodup →
      (∀ k ∈ (l.filterMap emit).map (fun p => p.1), k ∉ keysOf m) →
      insFold emit l m = m ++ l.filterMap emit := by
  intro l
  induction l with
  | nil =>
    intro m _ _
    simp [insFold_nil]
  | cons s l ih =>
    intro m hnd hdisj
    cases he : emit s with
    | none =>
      rw [List.filterMap_cons, he] at hnd hdisj ⊢
      rw [insFold_cons_none emit he]
      exact ih m hnd hdisj
    | some p =>
      obtain ⟨k0, v0⟩ := p
      rw [List.filterMap_cons, he] at hnd hdisj ⊢
      rw [List.map_cons, List.nodup_cons] at hnd
      have hd0 : k0 ∉ keysOf m :=
        hdisj k0 (by rw [List.map_cons]; exact List.mem_cons_self _ _)
      rw [insFold_cons_some emit he, mapSet_of_not_mem v0 hd0,
        ih (m ++ [(k0, v0)]) hnd.2 ?_, List.append_assoc, List.singleton_append]
      intro k hkmem
      rw [keysOf_append, List.mem_append]
      rintro (hkm | hk0)
      · exact hdisj k (by rw [List.map_cons]; exact List.mem_cons_of_mem _ hkmem) hkm
      · rw [show keysOf [(k0, v0)] = [k0] from rfl, List.mem_singleton] at hk0
        subst hk0
        exact hnd.1 hkmem

theorem insFold_idem (emit : σ → Option (String × α)) (l : List σ)
    {m : List (String × α)} (h : (keysOf m).Nodup) :
    insFold emit l (insFold emit l m) = insFold emit l m := by
  apply assoc_ext
  · rw [keysOf_insFold]
    have hall : ∀ k ∈ dedupKeys ((l.filterMap emit).map (fun p => p.1)),
        k ∈ keysOf (insFold emit l m) := by
      intro k hk
      have hk' := (mem_dedupKeys k _).mp hk
      obtain ⟨p, hp, hpk⟩ := List.mem_map.mp hk'
      obtain ⟨s, hs, hse⟩ := List.mem_filterMap.mp hp
      obtain ⟨k', v⟩ := p
      cases hpk
      exact emitted_mem_keysOf_insFold emit hs hse m
    have hnilf : (dedupKeys ((l.filterMap emit).map (fun p => p.1))).filter
        (fun k => k ∉ keysOf (insFold emit l m)) = [] := by
      rw [List.filter_eq_nil_iff]
      intro a ha
      simp [hall a ha]
    rw [hnilf, List.append_nil]
  · intro k
    rw [mlookup_insFold, mlookup_insFold]
    cases mlookup (l.filterMap emit).reverse k with
    | some v => rfl
    | none => rfl
  · exact nodup_keysOf_insFold emit l (nodup_keysOf_insFold emit l h)

end InsFoldOrder

/-! ## Invariants of the rate/tag maps -/

/-- Every key/value pair inserted by the rate loops is normalized: the
amount and unit are fixed points of the normalizers and the key is the
composite key recomputed from the stored value. -/
def RatePairOK (p : String × NRate) : Prop :=
  normNum p.2.amount = p.2.amount ∧ jsTrim p.2.unit = p.2.unit ∧ p.1 = nrateKey p.2

theorem rateExStep_ok : ∀ (r : RawRate) (p : String × NRate),
    rateExStep r = some p → RatePairOK p := by
  intro r p h
  rw [rateExStep, Option.some.injEq] at h
  subst h
  exact ⟨normNum_idem r.amount, jsTrim_normStr r.unit, rfl⟩

theorem rateIncStep_ok : ∀ (o : Option RawRate) (p : String × NRate),
    rateIncStep o = some p → RatePairOK p := by
  intro o p h
  cases o with
  | none => exact absurd h (by rw [rateIncStep]; exact Option.noConfusion)
  | some r =>
    rw [rateIncStep] at h
    by_cases hc : normNum r.amount = vnull ∧ normStr r.unit = ""
    · rw [if_pos hc] at h
      exact absurd h Option.noConfusion
    · rw [if_neg hc, Option.some.injEq] at h
      subst h
      exact ⟨normNum_idem r.amount, jsTrim_normStr r.unit, rfl⟩

theorem exStep_of_ok {p : String × NRate} (h : RatePairOK p) :
    rateExStep (nrateToRaw p.2) = some p := by
  obtain ⟨h1, h2, h3⟩ := h
  have hval : rateVal (nrateToRaw p.2) = p.2 := by
    show (⟨normNum p.2.amount, normStr (vstr p.2.unit)⟩ : NRate) = p.2
    rw [normStr_vstr, h1, h2]
  have hkey : rateKey (nrateToRaw p.2) = p.1 := by
    show jToString (normNum p.2.amount) ++ "|" ++ jsToLower (normStr (vstr p.2.unit)) = p.1
    rw [normStr_vstr, h1, h2, h3]
    rfl
  rw [rateExStep, hval, hkey]

theorem rateMap_ok (ex : List RawRate) (inc : List (Option RawRate)) :
    ∀ p ∈ insFold rateIncStep inc (insFold rateExStep ex []), RatePairOK p :=
  insFold_forall rateIncStep_ok inc
    (insFold_forall rateExStep_ok ex (fun p hp => absurd hp (List.not_mem_nil p)))

theorem rateMap_keys_nodup (ex : List RawRate) (inc : List (Option RawRate)) :
    (keysOf (insFold rateIncStep inc (insFold rateExStep ex []))).Nodup :=
  nodup_keysOf_insFold _ _ (nodup_keysOf_insFold _ _
    (by rw [keysOf_nil]; exact List.nodup_nil))

theorem filterMap_exStep_of_ok : ∀ (m : List (String × NRate)),
    (∀ p ∈ m, RatePairOK p) →
    ((valuesOf m).map nrateToRaw).filterMap rateExStep = m := by
  intro m
  induction m with
  | nil => intro _; rfl
  | cons p rest ih =>
    intro h
    rw [valuesOf_cons, List.map_cons, List.filterMap_cons,
      exStep_of_ok (h p (List.mem_cons_self _ _)),
      ih (fun q hq => h q (List.mem_cons_of_mem _ hq))]

theorem filterMap_exStep (ex : List RawRate) :
    ex.filterMap rateExStep = ex.map (fun r => (rateKey r, rateVal r)) := by
  induction ex with
  | nil => rfl
  | cons r rest ih =>
    rw [List.filterMap_cons, rateExStep, List.map_cons, ih]

theorem filterMap_tagExStep (ex : List RawTag) :
    ex.filterMap tagExStep =
      (ex.filter (fun t => normStr t.label ≠ "")).map (fun t => (tagKey t, tagVal t)) := by
  induction ex with
  | nil => rfl
  | cons t rest ih =>
    rw [List.filterMap_cons, List.filter_cons]
    by_cases h : normStr t.label = ""
    · rw [tagExStep, if_pos h, if_neg (by simp [h]), ih]
    · rw [tagExStep, if_neg h, if_pos (by simp [h]), List.map_cons, ih]

theorem tagMap_label_ne (ex : List RawTag) (inc : List (Option RawTag)) :
    ∀ p ∈ insFold tagIncStep inc (insFold tagExStep ex []), p.2.label ≠ "" := by
  have hex : ∀ (t : RawTag) (p : String × NTag), tagExStep t = some p →
      p.2.label ≠ "" := by
    intro t p h
    rw [tagExStep] at h
    by_cases hc : normStr t.label = ""
    · rw [if_pos hc] at h
      exact absurd h Option.noConfusion
    · rw [if_neg hc, Option.some.injEq] at h
      subst h
      exact hc
  have hinc : ∀ (o : Option RawTag) (p : String × NTag), tagIncStep o = some p →
      p.2.label ≠ "" := by
    intro o p h
    cases o with
    | none => exact absurd h (by rw [tagIncStep]; exact Option.noConfusion)
    | some t => exact hex t p h
  exact insFold_forall hinc inc
    (insFold_forall hex ex (fun p hp => absurd hp (List.not_mem_nil p)))

/-! ## Claim theorems -/

/-- Claim C1: for every existing and incoming sequence of Rate entries,
the output of `mergeRates` contains no two entries with the same identity
key, where the key of an entry is its (already normalized) amount paired
with its lowercased, trimmed unit. -/
theorem mergeRates_no_duplicate_key (ex : List RawRate) (inc : List (Option RawRate)) :
    (mergeRates ex inc).Pairwise (fun a b =>
      ¬(a.amount = b.amount ∧
        jsToLower (jsTrim a.unit) = jsToLower (jsTrim b.unit))) := by
  have hok := rateMap_ok ex inc
  have hnd := rateMap_keys_nodup ex inc
  show ((insFold rateIncStep inc (insFold rateExStep ex [])).map
    (fun p => p.2)).Pairwise _
  rw [List.pairwise_map]
  have hnd' : (insFold rateIncStep inc (insFold rateExStep ex [])).Pairwise
      (fun p q => p.1 ≠ q.1) := by
    have : (keysOf (insFold rateIncStep inc (insFold rateExStep ex []))).Pairwise
        (fun a b => a ≠ b) := hnd
    rw [keysOf, List.pairwise_map] at this
    exact this
  refine hnd'.imp_of_mem ?_
  intro p q hp hq hne
  rintro ⟨hA, hU⟩
  obtain ⟨-, h1t, h1k⟩ := hok p hp
  obtain ⟨-, h2t, h2k⟩ := hok q hq
  rw [h1t, h2t] at hU
  apply hne
  rw [h1k, h2k, nrateKey, nrateKey, hA, hU]

/-- Claim C2: `mergeRates` is idempotent in its incoming argument; feeding
the merged output back in as the existing collection and re-merging the
same incoming entries reproduces the output of the first merge. -/
theorem mergeRates_idempotent (ex : List RawRate) (inc : List (Option RawRate)) :
    mergeRates ((mergeRates ex inc).map nrateToRaw) inc = mergeRates ex inc := by
  have hok := rateMap_ok ex inc
  have hnd := rateMap_keys_nodup ex inc
  have hnd1 : (keysOf (insFold rateExStep ex [])).Nodup :=
    nodup_keysOf_insFold _ _ (by rw [keysOf_nil]; exact List.nodup_nil)
  have hfm := filterMap_exStep_of_ok _ hok
  have hseed := insFold_fresh rateExStep
    ((valuesOf (insFold rateIncStep inc (insFold rateExStep ex []))).map nrateToRaw) []
    (by rw [hfm]; exact hnd)
    (by rw [hfm]; intro k _hk; rw [keysOf_nil]; exact List.not_mem_nil k)
  rw [hfm, List.nil_append] at hseed
  show valuesOf (insFold rateIncStep inc (insFold rateExStep
    ((valuesOf (insFold rateIncStep inc (insFold rateExStep ex []))).map nrateToRaw) [])) =
    mergeRates ex inc
  rw [hseed, insFold_idem rateIncStep inc hnd1]
  rfl

/-- Claim C7: on the concrete example of the specification, the incoming
`150|Night` entry overwrites the case-variant existing `150|night` entry
in place (case-insensitive key, incoming casing stored) and `20|person`
is appended. -/
theorem mergeRates_case_insensitive_example :
    mergeRates [⟨vnum (fin 150), vstr "night"⟩]
      [some ⟨vnum (fin 150), vstr "Night"⟩, some ⟨vnum (fin 20), vstr "person"⟩] =
      [⟨vnum (fin 150), "Night"⟩, ⟨vnum (fin 20), "person"⟩] := by decide

/-- Claim C4, counterexample: the non-numeric string `"abc"` is coerced to
`NaN`, a number, not to `null`, refuting "maps every invalid
(non-numeric) value to null". -/
theorem normNum_invalid_not_null_cex :
    normNum (vstr "abc") = vnum nan ∧ normNum (vstr "abc") ≠ vnull := by decide

/-- Claim C4, amended: `normNum` returns `null` exactly on `null`,
`undefined` and the empty string, and otherwise the numeric coercion of
its argument (possibly `NaN`); in particular the result is always either
`null` or a number, never any other kind of value. -/
theorem normNum_null_or_number (v : JVal) :
    (normNum v = vnull ∨ ∃ n, normNum v = vnum n) ∧
    (normNum v = vnull ↔ v = vnull ∨ v = vundef ∨ v = vstr "") := by
  refine ⟨normNum_shape v, ?_, ?_⟩
  · intro h
    by_contra hc
    rw [normNum, if_neg hc] at h
    exact JVal.noConfusion h
  · intro h
    rw [normNum, if_pos h]

/-- Claim C9: the structural equality check `arraysEqual` returns `true`
for collections of equal length whose entries are element-wise
structurally equal (the embedding has value semantics, so object
reference identity cannot distinguish structurally identical
collections). -/
theorem arraysEqual_structural (a b : List JRec) (hlen : a.length = b.length)
    (h : ∀ (i : Nat) (ha : i < a.length) (hb : i < b.length),
      a.get ⟨i, ha⟩ = b.get ⟨i, hb⟩) :
    arraysEqual a b = true := by
  have hab : a = b := List.ext_get hlen h
  subst hab
  simp [arraysEqual]

theorem arraysEqual_structural_witness :
    arraysEqual [[("amount", vnum (fin 150))]] [[("amount", vnum (fin 150))]] = true := by
  apply arraysEqual_structural
  · rfl
  · intro i ha hb
    cases i with
    | zero => rfl
    | succ n => simp at ha

/-- Claim C10: `mergeRates` never drops an existing entry's key — every
existing entry (even one with null amount and empty unit) contributes its
key to the merged output — whereas `mergeTags` drops empty labels from
the existing side as well, so no merged tag has an empty label. -/
theorem mergeRates_keeps_every_existing_key :
    (∀ (ex : List RawRate) (inc : List (Option RawRate)), ∀ r ∈ ex,
        ∃ e ∈ mergeRates ex inc, nrateKey e = rateKey r) ∧
    (∀ (ex : List RawTag) (inc : List (Option RawTag)), ∀ t ∈ mergeTags ex inc,
        t.label ≠ "") := by
  constructor
  · intro ex inc r hr
    have hkey : rateKey r ∈
        keysOf (insFold rateIncStep inc (insFold rateExStep ex [])) :=
      mem_keysOf_insFold rateIncStep inc
        (emitted_mem_keysOf_insFold rateExStep hr rfl [])
    obtain ⟨p, hp, hpk⟩ := List.mem_map.mp hkey
    refine ⟨p.2, List.mem_map.mpr ⟨p, hp, rfl⟩, ?_⟩
    obtain ⟨-, -, h3⟩ := rateMap_ok ex inc p hp
    rw [← h3, hpk]
  · intro ex inc t ht
    have ht' : t ∈ (insFold tagIncStep inc (insFold tagExStep ex [])).map
        (fun p => p.2) := ht
    obtain ⟨p, hp, hpt⟩ := List.mem_map.mp ht'
    cases hpt
    exact tagMap_label_ne ex inc p hp

theorem mergeRates_keeps_every_existing_key_witness :
    (∃ e ∈ mergeRates [⟨vnull, vstr ""⟩] [], nrateKey e = rateKey ⟨vnull, vstr ""⟩) ∧
    (⟨"A"⟩ : NTag).label ≠ "" :=
  ⟨mergeRates_keeps_every_existing_key.1 [⟨vnull, vstr ""⟩] [] ⟨vnull, vstr ""⟩
      (by decide),
    mergeRates_keeps_every_existing_key.2 [⟨vstr "A"⟩] [] ⟨"A"⟩ (by decide)⟩

/-- The keys of the non-skipped incoming rate entries, in incoming
order. -/
def rateIncKeys (incoming : List (Option RawRate)) : List String :=
  (incoming.filterMap rateIncStep).map (fun p => p.1)

/-- Claim C8: the output of `mergeRates` lists the map's values in
insertion order — the keys of the output are the existing keys in order
of first occurrence, followed by the new incoming keys in incoming order;
an incoming entry that overwrites an existing key keeps that key's
original position. -/
theorem mergeRates_insertion_order (ex : List RawRate) (inc : List (Option RawRate)) :
    (mergeRates ex inc).map nrateKey =
      dedupKeys (ex.map rateKey) ++
        (dedupKeys (rateIncKeys inc)).filter (fun k => k ∉ ex.map rateKey) := by
  have hok := rateMap_ok ex inc
  have hmapkeys : (mergeRates ex inc).map nrateKey =
      keysOf (insFold rateIncStep inc (insFold rateExStep ex [])) := by
    show ((insFold rateIncStep inc (insFold rateExStep ex [])).map
      (fun p => p.2)).map nrateKey = _
    rw [List.map_map, keysOf]
    apply List.map_congr_left
    intro p hp
    obtain ⟨-, -, h3⟩ := hok p hp
    simp only [Function.comp_apply]
    exact h3.symm
  have hM1 : keysOf (insFold rateExStep ex []) = dedupKeys (ex.map rateKey) := by
    rw [keysOf_insFold, keysOf_nil, List.nil_append, filterMap_exStep, List.map_map]
    rw [show ((fun (p : String × NRate) => p.1) ∘ fun r => (rateKey r, rateVal r)) =
      rateKey from rfl]
    apply List.filter_eq_self.mpr
    intro a _ha
    simp
  rw [hmapkeys, keysOf_insFold, hM1]
  have hconv : (dedupKeys ((inc.filterMap rateIncStep).map (fun p => p.1))).filter
        (fun k => k ∉ dedupKeys (ex.map rateKey)) =
      (dedupKeys ((inc.filterMap rateIncStep).map (fun p => p.1))).filter
        (fun k => k ∉ ex.map rateKey) := by
    apply List.filter_congr
    intro x _
    simp [mem_dedupKeys]
  rw [hconv]
  rfl

/-- Claim C6, counterexample: an existing sequence with two entries of the
same identity key loses one of them under `mergeRates` with empty
incoming, although neither entry is empty — refuting "no entries dropped
except empty ones". -/
theorem merge_empty_incoming_cex :
    mergeRates [⟨vnum (fin 1), vstr "x"⟩, ⟨vnum (fin 1), vstr "x"⟩] [] ≠
        [⟨vnum (fin 1), vstr "x"⟩, ⟨vnum (fin 1), vstr "x"⟩].map rateVal ∧
      ¬(normNum (vnum (fin 1)) = vnull ∧ normStr (vstr "x") = "") := by decide

/-- Claim C6, amended: merging an empty incoming sequence into an existing
sequence whose entries have pairwise distinct identity keys returns
exactly the normalized existing entries; for tags, entries whose
normalized label is empty are additionally dropped (rates keep their
empty entries). -/
theorem merge_empty_incoming (exR : List RawRate) (exT : List RawTag)
    (hndR : (exR.map rateKey).Nodup)
    (hndT : ((exT.filter (fun t => normStr t.label ≠ "")).map tagKey).Nodup) :
    mergeRates exR [] = exR.map rateVal ∧
    mergeTags exT [] = (exT.map tagVal).filter (fun t => t.label ≠ "") := by
  constructor
  · show valuesOf (insFold rateIncStep [] (insFold rateExStep exR [])) = _
    rw [insFold_nil,
      insFold_fresh rateExStep exR []
        (by rw [filterMap_exStep, List.map_map]; exact hndR)
        (fun k _ => by rw [keysOf_nil]; exact List.not_mem_nil k),
      List.nil_append, filterMap_exStep]
    show (exR.map (fun r => (rateKey r, rateVal r))).map (fun p => p.2) = _
    rw [List.map_map]
    rfl
  · show valuesOf (insFold tagIncStep [] (insFold tagExStep exT [])) = _
    rw [insFold_nil,
      insFold_fresh tagExStep exT []
        (by rw [filterMap_tagExStep, List.map_map]; exact hndT)
        (fun k _ => by rw [keysOf_nil]; exact List.not_mem_nil k),
      List.nil_append, filterMap_tagExStep]
    show ((exT.filter (fun t => normStr t.label ≠ "")).map
        (fun t => (tagKey t, tagVal t))).map (fun p => p.2) = _
    rw [List.map_map, List.filter_map]
    rfl

theorem merge_empty_incoming_witness :
    mergeRates [⟨vnum (fin 1), vstr "x"⟩] [] = [⟨vnum (fin 1), "x"⟩] ∧
    mergeTags [⟨vstr "A"⟩, ⟨vstr " "⟩] [] = [⟨"A"⟩] := by
  have h := merge_empty_incoming [⟨vnum (fin 1), vstr "x"⟩]
    [⟨vstr "A"⟩, ⟨vstr " "⟩] (by decide) (by decide)
  exact ⟨h.1.trans (by decide), h.2.trans (by decide)⟩

theorem exListMap_getEntry_map_some {β : Type} (l : List β) :
    exListMap getEntry (l.map some) = Except.ok l := by
  induction l with
  | nil => rfl
  | cons x rest ih => rw [List.map_cons, exListMap, getEntry, ih]

theorem exListMap_normRepChk_map_some (kf : List String) (l : List RawObj) :
    exListMap (normRepChk kf) (l.map some) = Except.ok (l.map (normRep kf)) := by
  induction l with
  | nil => rfl
  | cons x rest ih => rw [List.map_cons, exListMap, normRepChk, ih, List.map_cons]

/-- Claim C3, counterexample: a `null` entry in the EXISTING sequence makes
`mergeRates` raise (the first loop dereferences `r.amount` without a null
check), refuting "never throws for any input, including null entries on
either side". -/
theorem mergeRates_null_existing_throws_cex :
    mergeRatesChk [none] [] = Except.error () := rfl

/-- Claim C3, amended: the merge helpers never raise when every entry of
the existing sequence is non-nullish (and, for `mergeRepeatable`, every
incoming entry too); nullish entries in the INCOMING sequence of
`mergeRates`/`mergeTags` are skipped rather than raising. -/
theorem merge_helpers_no_throw :
    (∀ (ex : List RawRate) (inc : List (Option RawRate)),
        mergeRatesChk (ex.map some) inc = Except.ok (mergeRates ex inc)) ∧
    (∀ (ex : List RawTag) (inc : List (Option RawTag)),
        mergeTagsChk (ex.map some) inc = Except.ok (mergeTags ex inc)) ∧
    (∀ (ex inc : List RawObj) (kf : List String),
        mergeRepeatableChk (ex.map some) (inc.map some) kf =
          Except.ok (mergeRepeatable ex inc kf)) ∧
    (∀ (ex : List RawRate) (inc : List (Option RawRate)),
        mergeRates ex (none :: inc) = mergeRates ex inc) ∧
    (∀ (ex : List RawTag) (inc : List (Option RawTag)),
        mergeTags ex (none :: inc) = mergeTags ex inc) := by
  refine ⟨?_, ?_, ?_, ?_, ?_⟩
  · intro ex inc
    rw [mergeRatesChk, exListMap_getEntry_map_some]
    rfl
  · intro ex inc
    rw [mergeTagsChk, exListMap_getEntry_map_some]
    rfl
  · intro ex inc kf
    rw [mergeRepeatableChk, exListMap_normRepChk_map_some]
    show (if 0 < ((inc.map (normRep kf)).filter
        (fun o => decide (0 < o.length))).length then
      Except.ok ((inc.map (normRep kf)).filter (fun o => decide (0 < o.length)))
      else exListMap (normRepChk kf) (ex.map some)) = _
    rw [exListMap_normRepChk_map_some]
    by_cases h : 0 < ((inc.map (normRep kf)).filter
        (fun o => decide (0 < o.length))).length
    · rw [if_pos h, mergeRepeatable, if_pos h]
    · rw [if_neg h, mergeRepeatable, if_neg h]
  · intro ex inc
    show valuesOf (insFold rateIncStep (none :: inc) (insFold rateExStep ex [])) = _
    rw [insFold_cons_none rateIncStep (show rateIncStep none = none from rfl)]
    rfl
  · intro ex inc
    show valuesOf (insFold tagIncStep (none :: inc) (insFold tagExStep ex [])) = _
    rw [insFold_cons_none tagIncStep (show tagIncStep none = none from rfl)]
    rfl

theorem filterMap_filter_ne {β : Type} {g : String → Option β} {k : String}
    (hg : g k = none) :
    ∀ X : List String, (X.filter (fun x => x ≠ k)).filterMap g = X.filterMap g := by
  intro X
  induction X with
  | nil => rfl
  | cons x rest ih =>
    rw [List.filter_cons]
    by_cases hx : x = k
    · subst hx
      rw [if_neg (by simp), List.filterMap_cons_none hg]
      exact ih
    · rw [if_pos (by simp [hx]), List.filterMap_cons, List.filterMap_cons, ih]

theorem normRep_foldl (o : RawObj) : ∀ (kf : List String) (acc : List (String × String)),
    (keysOf acc).Nodup → (∀ p ∈ acc, p.2 = normStr (objGet o p.1)) →
    kf.foldl (fun res k => if objGet o k = vundef then res
        else mapSet res k (normStr (objGet o k))) acc =
      acc ++ (dedupKeys (kf.filter (fun k => k ∉ keysOf acc))).filterMap
        (fun k => if objGet o k = vundef then none
          else some (k, normStr (objGet o k))) := by
  intro kf
  induction kf with
  | nil =>
    intro acc _ _
    simp [dedupKeys]
  | cons k kf' ih =>
    intro acc hnd hval
    rw [List.foldl_cons]
    by_cases hu : objGet o k = vundef
    · rw [if_pos hu, ih acc hnd hval]
      congr 1
      rw [List.filter_cons]
      by_cases hmem : k ∈ keysOf acc
      · rw [if_neg (by simp [hmem])]
      · rw [if_pos (by simp [hmem]), dedupKeys,
          List.filterMap_cons_none (by rw [if_pos hu]), dedupKeys_filter_ne,
          filterMap_filter_ne (by rw [if_pos hu])]
    · rw [if_neg hu]
      by_cases hmem : k ∈ keysOf acc
      · rw [mapSet_eq_self (@mlookup_valfun String (fun k' => normStr (objGet o k'))
          acc hval k hmem), ih acc hnd hval]
        congr 1
        rw [List.filter_cons, if_neg (by simp [hmem])]
      · rw [mapSet_of_not_mem _ hmem]
        have hnd' : (keysOf (acc ++ [(k, normStr (objGet o k))])).Nodup := by
          rw [keysOf_append, show keysOf [(k, normStr (objGet o k))] = [k] from rfl]
          refine List.Nodup.append hnd (List.nodup_singleton k) ?_
          intro x hx hx'
          rw [List.mem_singleton] at hx'
          subst hx'
          exact hmem hx
        have hval' : ∀ p ∈ acc ++ [(k, normStr (objGet o k))],
            p.2 = normStr (objGet o p.1) := by
          intro p hp
          rcases List.mem_append.mp hp with h1 | h1
          · exact hval p h1
          · rw [List.mem_singleton] at h1
            subst h1
            rfl
        rw [ih _ hnd' hval', keysOf_append,
          show keysOf [(k, normStr (objGet o k))] = [k] from rfl,
          filter_not_mem_append, filter_swap, dedupKeys_filter_ne]
        rw [List.filter_cons, if_pos (by simp [hmem]), dedupKeys,
          List.filterMap_cons_some (by rw [if_neg hu]), dedupKeys_filter_ne,
          List.append_assoc, List.singleton_append]

/-- Specification-side normalization of one repeatable entry, as the
amended claim describes it: for each listed field (first occurrence
order), keep the field if it is present (not `undefined`) on the entry,
with its trimmed string coercion as value. -/
def normRepSpec (keyFields : List String) (o : RawObj) : List (String × String) :=
  (dedupKeys keyFields).filterMap (fun k =>
    if objGet o k = vundef then none else some (k, normStr (objGet o k)))

/-- Specification-side repeatable merge, as the amended claim describes
it: if every incoming entry normalizes to the empty object (no listed
field present), return the normalized existing entries; otherwise return
exactly the normalized incoming entries that kept at least one field. -/
def mergeRepeatableSpec (existing incoming : List RawObj)
    (keyFields : List String) : List (List (String × String)) :=
  if incoming.all (fun o => normRepSpec keyFields o = []) then
    existing.map (normRepSpec keyFields)
  else (incoming.map (normRepSpec keyFields)).filter (fun o => o ≠ [])

theorem normRep_eq_spec (kf : List String) (o : RawObj) :
    normRep kf o = normRepSpec kf o := by
  have h := normRep_foldl o kf [] (by rw [keysOf_nil]; exact List.nodup_nil)
    (fun p hp => absurd hp (List.not_mem_nil p))
  rw [keysOf_nil] at h
  rw [show kf.filter (fun k => k ∉ ([] : List String)) = kf from
    List.filter_eq_self.mpr (by intro a _; simp)] at h
  rw [List.nil_append] at h
  exact h

/-- Claim C5, counterexample: an incoming entry whose only listed field is
present but trims to the empty string is KEPT (the filter tests field
presence, not emptiness), so the existing collection is replaced by
`[ \x7b title: "" \x7d ]` instead of being returned normalized — refuting
"drops every incoming entry whose listed fields have all reduced to
empty". -/
theorem mergeRepeatable_empty_fields_kept_cex :
    mergeRepeatable [[("title", vstr "A")]] [[("title", vstr " ")]] ["title"] =
        [[("title", "")]] ∧
      mergeRepeatable [[("title", vstr "A")]] [[("title", vstr " ")]] ["title"] ≠
        [[("title", "A")]] := by decide

/-- Claim C5, amended: `mergeRepeatable` normalizes each incoming entry by
keeping only the listed fields that are present (not `undefined`), each
trimmed; it drops the incoming entries on which NO listed field is
present; if any normalized incoming entry remains they are the entire
result, otherwise the result is the normalized existing sequence. -/
theorem mergeRepeatable_full_replace (ex inc : List RawObj) (kf : List String) :
    mergeRepeatable ex inc kf = mergeRepeatableSpec ex inc kf := by
  rw [mergeRepeatable, mergeRepeatableSpec,
    show normRep kf = normRepSpec kf from funext (normRep_eq_spec kf)]
  have hfilter : (inc.map (normRepSpec kf)).filter (fun o => decide (0 < o.length)) =
      (inc.map (normRepSpec kf)).filter (fun o => o ≠ []) := by
    apply List.filter_congr
    intro x _
    cases x <;> simp
  rw [hfilter]
  by_cases hall : ∀ o ∈ inc, normRepSpec kf o = []
  · have hns : (inc.map (normRepSpec kf)).filter (fun o => o ≠ []) = [] := by
      rw [List.filter_eq_nil_iff]
      intro a ha
      obtain ⟨x, hx, hxa⟩ := List.mem_map.mp ha
      subst hxa
      simp [hall x hx]
    rw [hns, if_neg (by simp),
      if_pos (by rw [List.all_eq_true]; intro x hx; simp [hall x hx])]
  · push_neg at hall
    obtain ⟨x, hx, hne⟩ := hall
    have hmem : normRepSpec kf x ∈
        (inc.map (normRepSpec kf)).filter (fun o => o ≠ []) :=
      List.mem_filter.mpr ⟨List.mem_map.mpr ⟨x, hx, rfl⟩, by simp [hne]⟩
    have hfalse : ¬(inc.all (fun o => decide (normRepSpec kf o = [])) = true) := by
      rw [List.all_eq_true]
      push_neg
      exact ⟨x, hx, by simp [hne]⟩
    rw [if_pos (List.length_pos.mpr (List.ne_nil_of_mem hmem)), if_neg hfalse]
